import Mathlib

/-!
Verification of the cube-generation pipeline (`generate.py`) and the deck-file
minimizer (`tools/minimize.py`).

The Python source is shallowly embedded: pure functions become Lean functions,
fallible operations return `Option`, and a raised exception (for example the
`TypeError` raised by Python when a list comparison reaches two elements of
different types, or the `ValueError` raised by `min` on an empty sequence) is
modelled as `none`.  Strings are Lean `String`s: Python compares strings
lexicographically by code point, exactly as the `LinearOrder String` instance
does.  The external card/set metadata service (the "oracle") is passed in as an
explicit argument.
-/

/-- Python three-way comparison `(a > b) - (a < b)` on a linearly ordered type,
as an `Ordering`. -/
def pyCmp {α : Type} [LinearOrder α] (a b : α) : Ordering :=
  if a < b then .lt else if a = b then .eq else .gt

theorem pyCmp_eq_lt {α : Type} [LinearOrder α] {a b : α} :
    pyCmp a b = .lt ↔ a < b := by
  unfold pyCmp
  split_ifs with h₁ h₂ <;> simp_all

theorem pyCmp_eq_eq {α : Type} [LinearOrder α] {a b : α} :
    pyCmp a b = .eq ↔ a = b := by
  unfold pyCmp
  split_ifs with h₁ h₂ <;> simp_all
  exact ne_of_lt h₁

theorem pyCmp_eq_gt {α : Type} [LinearOrder α] {a b : α} :
    pyCmp a b = .gt ↔ b < a := by
  rcases lt_trichotomy a b with h | h | h
  · rw [pyCmp, if_pos h]
    simp [not_lt.mpr h.le]
  · subst h
    rw [pyCmp, if_neg (lt_irrefl a), if_pos rfl]
    simp
  · rw [pyCmp, if_neg (not_lt.mpr h.le), if_neg (ne_of_gt h)]
    simp [h]

theorem pyCmp_self {α : Type} [LinearOrder α] (a : α) : pyCmp a a = .eq :=
  pyCmp_eq_eq.mpr rfl

theorem pyCmp_swap {α : Type} [LinearOrder α] (a b : α) :
    (pyCmp a b).swap = pyCmp b a := by
  rcases lt_trichotomy a b with h | h | h
  · rw [pyCmp_eq_lt.mpr h, show pyCmp b a = .gt from pyCmp_eq_gt.mpr h]
    rfl
  · rw [pyCmp_eq_eq.mpr h, pyCmp_eq_eq.mpr h.symm]
    rfl
  · rw [show pyCmp a b = .gt from pyCmp_eq_gt.mpr h, pyCmp_eq_lt.mpr h]
    rfl

theorem pyCmp_trans_lt {α : Type} [LinearOrder α] {a b c : α}
    (h₁ : pyCmp a b = .lt) (h₂ : pyCmp b c = .lt) : pyCmp a c = .lt :=
  pyCmp_eq_lt.mpr (lt_trans (pyCmp_eq_lt.mp h₁) (pyCmp_eq_lt.mp h₂))

/-- Executable lexicographic comparison of character lists: Python compares
strings by code point, position by position, a strict prefix comparing
less. -/
def cmpCharList : List Char → List Char → Ordering
  | [], [] => .eq
  | [], _ :: _ => .lt
  | _ :: _, [] => .gt
  | c :: cs, d :: ds =>
    match pyCmp c d with
    | .eq => cmpCharList cs ds
    | o => o

/-- Python string comparison as an executable three-way comparison; it agrees
with the `LinearOrder String` instance (`strCmp_eq_lt` and friends). -/
def strCmp (a b : String) : Ordering :=
  cmpCharList a.data b.data

theorem cmpCharList_eq_eq : ∀ {cs ds : List Char}, cmpCharList cs ds = .eq ↔ cs = ds
  | [], [] => by simp [cmpCharList]
  | [], _ :: _ => by simp [cmpCharList]
  | _ :: _, [] => by simp [cmpCharList]
  | c :: cs, d :: ds => by
    simp only [cmpCharList]
    rcases h : pyCmp c d with _ | _ | _
    · have : ¬ (c = d) := fun he => by simp [he, pyCmp_self] at h
      simp [this]
    · have : c = d := pyCmp_eq_eq.mp h
      simp [this, cmpCharList_eq_eq]
    · have : ¬ (c = d) := fun he => by simp [he, pyCmp_self] at h
      simp [this]

theorem cmpCharList_eq_lex : ∀ {cs ds : List Char},
    cmpCharList cs ds = .lt ↔ List.Lex (· < ·) cs ds
  | [], [] => by
    simp only [cmpCharList]
    constructor
    · intro h
      exact Ordering.noConfusion h
    · intro h
      cases h
  | [], _ :: _ => by
    constructor
    · intro _
      exact List.Lex.nil
    · intro _
      rfl
  | _ :: _, [] => by
    simp only [cmpCharList]
    constructor
    · intro h
      exact Ordering.noConfusion h
    · intro h
      cases h
  | c :: cs, d :: ds => by
    simp only [cmpCharList]
    rcases h : pyCmp c d with _ | _ | _
    · have hlt : c < d := pyCmp_eq_lt.mp h
      exact ⟨fun _ => List.Lex.rel hlt, fun _ => rfl⟩
    · have he : c = d := pyCmp_eq_eq.mp h
      subst he
      constructor
      · intro hcmp
        exact List.Lex.cons (cmpCharList_eq_lex.mp hcmp)
      · intro hlex
        cases hlex with
        | cons htail => exact cmpCharList_eq_lex.mpr htail
        | rel hr => exact absurd hr (lt_irrefl c)
    · have hgt : d < c := pyCmp_eq_gt.mp h
      constructor
      · intro hcmp
        exact Ordering.noConfusion hcmp
      · intro hlex
        cases hlex with
        | cons _ => exact absurd hgt (lt_irrefl c)
        | rel hr => exact absurd hgt (not_lt.mpr hr.le)

theorem cmpCharList_swap : ∀ (cs ds : List Char),
    (cmpCharList cs ds).swap = cmpCharList ds cs
  | [], [] => rfl
  | [], _ :: _ => rfl
  | _ :: _, [] => rfl
  | c :: cs, d :: ds => by
    simp only [cmpCharList]
    rcases h : pyCmp c d with _ | _ | _
    · rw [show pyCmp d c = .gt from by rw [← pyCmp_swap, h]; rfl]
      rfl
    · have he : c = d := pyCmp_eq_eq.mp h
      subst he
      rw [pyCmp_self]
      exact cmpCharList_swap cs ds
    · rw [show pyCmp d c = .lt from by rw [← pyCmp_swap, h]; rfl]
      rfl

theorem strCmp_eq_lt {a b : String} : strCmp a b = .lt ↔ a < b := by
  rw [String.lt_iff_toList_lt]
  exact cmpCharList_eq_lex

theorem strCmp_eq_eq {a b : String} : strCmp a b = .eq ↔ a = b :=
  cmpCharList_eq_eq.trans ⟨fun h => String.ext h, fun h => by rw [h]⟩

theorem strCmp_eq_gt {a b : String} : strCmp a b = .gt ↔ b < a := by
  rw [show (b < a) = (strCmp b a = .lt) from (propext strCmp_eq_lt).symm]
  unfold strCmp
  rw [← cmpCharList_swap b.data a.data]
  cases cmpCharList b.data a.data <;> simp [Ordering.swap]

theorem strCmp_self (a : String) : strCmp a a = .eq :=
  strCmp_eq_eq.mpr rfl

theorem strCmp_trans_lt {a b c : String} (h₁ : strCmp a b = .lt)
    (h₂ : strCmp b c = .lt) : strCmp a c = .lt :=
  strCmp_eq_lt.mpr (lt_trans (strCmp_eq_lt.mp h₁) (strCmp_eq_lt.mp h₂))

/-- A chunk of a collector number, as produced by `_chunkify`: a maximal run of
decimal digits parsed as an integer, or a maximal run of non-digit characters
kept as a string. -/
inductive Chunk : Type where
  | num : Nat → Chunk
  | str : String → Chunk
deriving DecidableEq

/-- The scanner behind `charRuns`: `flag` is the digit-ness of the run being
accumulated (in reverse) in `acc`. -/
def charRunsGo (flag : Bool) (acc : List Char) : List Char → List (List Char)
  | [] => [acc.reverse]
  | c :: cs =>
    if c.isDigit == flag then charRunsGo flag (c :: acc) cs
    else acc.reverse :: charRunsGo c.isDigit [c] cs

/-- Maximal runs of characters that agree on digit-ness, in order: the token
stream of the regex `\d+|\D+` used by `_chunkify`.  (Collector numbers contain
only ASCII digits, so `Char.isDigit` coincides with the regex class `\d`.) -/
def charRuns : List Char → List (List Char)
  | [] => []
  | c :: cs => charRunsGo c.isDigit [c] cs

/-- The numeric value Python `int` assigns to a run of decimal digits. -/
def digitsToNat (run : List Char) : Nat :=
  run.foldl (fun acc c => acc * 10 + (c.toNat - '0'.toNat)) 0

/-- One chunk of `_chunkify`: `int(chunk) if chunk.isnumeric() else chunk`. -/
def toChunk (run : List Char) : Chunk :=
  if run.all Char.isDigit then .num (digitsToNat run) else .str (String.mk run)

/-- `_chunkify`: split a collector number into digit / non-digit runs, digit
runs becoming integers. -/
def chunkify (s : String) : List Chunk :=
  (charRuns s.data).map toChunk

/-- Python comparison of two chunks.  Comparing an `int` chunk with a `str`
chunk raises `TypeError`, modelled as `none`. -/
def cmpChunk : Chunk → Chunk → Option Ordering
  | .num m, .num n => some (pyCmp m n)
  | .str s, .str t => some (strCmp s t)
  | _, _ => none

/-- Python list comparison of two chunk sequences: positional, with a strict
prefix comparing less; the first cross-type element comparison raises
(`none`). -/
def cmpChunks : List Chunk → List Chunk → Option Ordering
  | [], [] => some .eq
  | [], _ :: _ => some .lt
  | _ :: _, [] => some .gt
  | x :: xs, y :: ys =>
    match cmpChunk x y with
    | none => none
    | some .eq => cmpChunks xs ys
    | some o => some o

theorem cmpChunk_eq_eq {x y : Chunk} : cmpChunk x y = some .eq ↔ x = y := by
  cases x <;> cases y <;> simp [cmpChunk, pyCmp_eq_eq, strCmp_eq_eq]

theorem cmpChunk_lt_iff_gt {x y : Chunk} :
    cmpChunk x y = some .lt ↔ cmpChunk y x = some .gt := by
  cases x <;> cases y <;> simp [cmpChunk, pyCmp_eq_lt, pyCmp_eq_gt, strCmp_eq_lt, strCmp_eq_gt]

theorem cmpChunk_trans_lt {x y z : Chunk} (h₁ : cmpChunk x y = some .lt)
    (h₂ : cmpChunk y z = some .lt) : cmpChunk x z = some .lt := by
  cases x <;> cases y <;> cases z <;>
    simp only [cmpChunk, Option.some.injEq, pyCmp_eq_lt, strCmp_eq_lt] at h₁ h₂ ⊢ <;>
    first
      | exact lt_trans h₁ h₂
      | exact Option.noConfusion h₁
      | exact Option.noConfusion h₂

theorem cmpChunks_eq_eq : ∀ {a b : List Chunk}, cmpChunks a b = some .eq ↔ a = b
  | [], [] => by simp [cmpChunks]
  | [], _ :: _ => by simp [cmpChunks]
  | _ :: _, [] => by simp [cmpChunks]
  | x :: xs, y :: ys => by
    simp only [cmpChunks]
    rcases h : cmpChunk x y with _ | o
    · have : ¬ (x = y) := fun he => by
        rw [he, cmpChunk_eq_eq.mpr rfl] at h
        exact Option.noConfusion h
      simp [this]
    · cases o with
      | eq =>
        have hxy : x = y := cmpChunk_eq_eq.mp h
        simp [hxy, cmpChunks_eq_eq]
      | lt =>
        have : ¬ (x = y) := fun he => by
          rw [he, cmpChunk_eq_eq.mpr rfl] at h
          exact Ordering.noConfusion (Option.some.inj h)
        simp [this]
      | gt =>
        have : ¬ (x = y) := fun he => by
          rw [he, cmpChunk_eq_eq.mpr rfl] at h
          exact Ordering.noConfusion (Option.some.inj h)
        simp [this]

theorem cmpChunks_refl (a : List Chunk) : cmpChunks a a = some .eq :=
  cmpChunks_eq_eq.mpr rfl

theorem cmpChunks_lt_iff_gt : ∀ {a b : List Chunk},
    cmpChunks a b = some .lt ↔ cmpChunks b a = some .gt
  | [], [] => by simp [cmpChunks]
  | [], _ :: _ => by simp [cmpChunks]
  | _ :: _, [] => by simp [cmpChunks]
  | x :: xs, y :: ys => by
    simp only [cmpChunks]
    rcases h : cmpChunk x y with _ | o
    · have h' : cmpChunk y x = none := by
        cases x <;> cases y <;> simp_all [cmpChunk]
      simp [h']
    · cases o with
      | eq =>
        have hxy : x = y := cmpChunk_eq_eq.mp h
        subst hxy
        rw [cmpChunk_eq_eq.mpr rfl]
        exact cmpChunks_lt_iff_gt
      | lt =>
        have h' : cmpChunk y x = some .gt := cmpChunk_lt_iff_gt.mp h
        simp [h']
      | gt =>
        have h' : cmpChunk y x = some .lt := cmpChunk_lt_iff_gt.mpr h
        simp [h']

theorem cmpChunks_trans_lt : ∀ {a b c : List Chunk},
    cmpChunks a b = some .lt → cmpChunks b c = some .lt →
    cmpChunks a c = some .lt
  | [], [], _ => by simp [cmpChunks]
  | [], _ :: _, [] => by intro _ h; simp [cmpChunks] at h
  | [], _ :: _, _ :: _ => by intros; simp [cmpChunks]
  | _ :: _, [], _ => by simp [cmpChunks]
  | x :: xs, y :: ys, [] => by intro _ h; simp [cmpChunks] at h
  | x :: xs, y :: ys, z :: zs => by
    simp only [cmpChunks]
    rcases hxy : cmpChunk x y with _ | o₁
    · intro h
      exact Option.noConfusion h
    · rcases hyz : cmpChunk y z with _ | o₂
      · intro _ h
        exact Option.noConfusion h
      · cases o₁ with
        | eq =>
          have : x = y := cmpChunk_eq_eq.mp hxy
          subst this
          cases o₂ with
          | eq =>
            have : x = z := cmpChunk_eq_eq.mp hyz
            subst this
            rw [cmpChunk_eq_eq.mpr rfl]
            exact cmpChunks_trans_lt
          | lt =>
            rw [hyz]
            intro _ h
            exact h
          | gt =>
            rw [hyz]
            intro _ h
            exact absurd (Option.some.inj h) (by simp)
        | lt =>
          cases o₂ with
          | eq =>
            have : y = z := cmpChunk_eq_eq.mp hyz
            subst this
            rw [hxy]
            intro h _
            exact h
          | lt =>
            rw [cmpChunk_trans_lt hxy hyz]
            intros
            rfl
          | gt =>
            intro _ h
            exact absurd (Option.some.inj h) (by simp)
        | gt =>
          intro h
          exact absurd (Option.some.inj h) (by simp)

/-- A candidate print record as returned by the card oracle (`mtgsdk.Card`):
`name`, the list of face names (`names`, empty when the card has a single
face), the set code (`set`) and the collector number (`number`). -/
structure Card : Type where
  name : String
  names : List String
  set : String
  number : String
deriving DecidableEq

/-- A set-metadata record as returned by the set oracle (`mtgsdk.Set`):
code, product type and release date (an ISO date string, which Python
compares as a plain string). -/
structure MtgSet : Type where
  code : String
  set_type : String
  release_date : String
deriving DecidableEq

/-- `SetRepository._SET_TYPES`: the allowed product types. -/
def SET_TYPES : List String :=
  ["starter", "core", "expansion",
   "commander", "draft_innovation", "planechase", "archenemy"]

/-- `SetRepository._BLACKLISTED_SET_CODES`. -/
def BLACKLISTED_SET_CODES : List String := ["LEA", "4ED"]

/-- Modelled from the spec (external set-metadata collaborator,
`Set.where(type=...).all()`): the service returns every source whose product
type is among the requested types. -/
def setWhere (types : List String) (univ : List MtgSet) : List MtgSet :=
  univ.filter (fun s => types.contains s.set_type)

/-- `SetRepository._sets`: the queried sets minus the blacklist (kept as a
list; the Python dict is keyed by code with later duplicates winning, see
`lookupSet`). -/
def setRepo (univ : List MtgSet) : List MtgSet :=
  (setWhere SET_TYPES univ).filter
    (fun s => !(BLACKLISTED_SET_CODES.contains s.code))

/-- `SetRepository.__contains__`. -/
def setRepoContains (univ : List MtgSet) (code : String) : Bool :=
  (setRepo univ).any (fun s => s.code == code)

/-- Dict lookup by set code (`SetRepository.__getitem__`); with duplicate
codes the last record wins, as in a dict comprehension. -/
def lookupSet (repo : List MtgSet) (code : String) : Option MtgSet :=
  repo.reverse.find? (fun s => s.code == code)

/-- `_card_date`: the release date of a card's set; `none` models the
`KeyError` raised when the set is absent from the repository. -/
def card_date (repo : List MtgSet) (c : Card) : Option String :=
  (lookupSet repo c.set).map (fun s => s.release_date)

/-- `_card_compare`: release dates first (string comparison), then the
chunkified collector numbers (Python list comparison).  `none` models a
raised exception. -/
def card_compare (repo : List MtgSet) (this other : Card) : Option Ordering :=
  match card_date repo this, card_date repo other with
  | some d₁, some d₂ =>
    if d₁ ≠ d₂ then some (strCmp d₁ d₂)
    else cmpChunks (chunkify this.number) (chunkify other.number)
  | _, _ => none


theorem card_compare_some_some {repo : List MtgSet} {a b : Card} {da db : String}
    (ha : card_date repo a = some da) (hb : card_date repo b = some db) :
    card_compare repo a b =
      if da ≠ db then some (strCmp da db)
      else cmpChunks (chunkify a.number) (chunkify b.number) := by
  unfold card_compare
  rw [ha, hb]

theorem card_compare_none_left {repo : List MtgSet} {a b : Card}
    (ha : card_date repo a = none) : card_compare repo a b = none := by
  unfold card_compare
  rw [ha]

theorem card_compare_none_right {repo : List MtgSet} {a b : Card}
    (hb : card_date repo b = none) : card_compare repo a b = none := by
  unfold card_compare
  rw [hb]
  rcases card_date repo a with _ | da <;> rfl

/-- A comparison that returns `eq` pins down the release date and the chunk
sequence of both cards. -/
theorem card_compare_eq_elim {repo : List MtgSet} {a b : Card}
    (h : card_compare repo a b = some .eq) :
    ∃ d, card_date repo a = some d ∧ card_date repo b = some d ∧
      chunkify a.number = chunkify b.number := by
  rcases ha : card_date repo a with _ | da
  · rw [card_compare_none_left ha] at h
    exact Option.noConfusion h
  rcases hb : card_date repo b with _ | db
  · rw [card_compare_none_right hb] at h
    exact Option.noConfusion h
  rw [card_compare_some_some ha hb] at h
  by_cases hd : da = db
  · subst hd
    rw [if_neg (by simp)] at h
    exact ⟨da, rfl, rfl, cmpChunks_eq_eq.mp h⟩
  · rw [if_pos hd] at h
    exact absurd (strCmp_eq_eq.mp (Option.some.inj h)) hd

theorem card_compare_eq_symm {repo : List MtgSet} {a b : Card}
    (h : card_compare repo a b = some .eq) :
    card_compare repo b a = some .eq := by
  obtain ⟨d, ha, hb, hc⟩ := card_compare_eq_elim h
  rw [card_compare_some_some hb ha, if_neg (by simp), hc, cmpChunks_refl]

/-- Cards that compare `eq` are interchangeable on the left of the
comparator. -/
theorem card_compare_congr_left {repo : List MtgSet} {a b : Card}
    (h : card_compare repo a b = some .eq) (c : Card) :
    card_compare repo a c = card_compare repo b c := by
  obtain ⟨d, ha, hb, hc⟩ := card_compare_eq_elim h
  rcases hcc : card_date repo c with _ | dc
  · rw [card_compare_none_right hcc, card_compare_none_right hcc]
  · rw [card_compare_some_some ha hcc, card_compare_some_some hb hcc, hc]

/-- Cards that compare `eq` are interchangeable on the right of the
comparator. -/
theorem card_compare_congr_right {repo : List MtgSet} {a b : Card}
    (h : card_compare repo a b = some .eq) (c : Card) :
    card_compare repo c a = card_compare repo c b := by
  obtain ⟨d, ha, hb, hc⟩ := card_compare_eq_elim h
  rcases hcc : card_date repo c with _ | dc
  · rw [card_compare_none_left hcc, card_compare_none_left hcc]
  · rw [card_compare_some_some hcc ha, card_compare_some_some hcc hb, hc]

theorem card_compare_lt_iff_gt {repo : List MtgSet} {a b : Card} :
    card_compare repo a b = some .lt ↔ card_compare repo b a = some .gt := by
  rcases ha : card_date repo a with _ | da
  · rw [card_compare_none_left ha, card_compare_none_right ha]
    simp
  rcases hb : card_date repo b with _ | db
  · rw [card_compare_none_right hb, card_compare_none_left hb]
    simp
  rw [card_compare_some_some ha hb, card_compare_some_some hb ha]
  by_cases hd : da = db
  · subst hd
    rw [if_neg (by simp), if_neg (by simp)]
    exact cmpChunks_lt_iff_gt
  · rw [if_pos hd, if_pos (Ne.symm hd)]
    simp only [Option.some.injEq, strCmp_eq_lt, strCmp_eq_gt]

theorem card_compare_trans_lt {repo : List MtgSet} {a b c : Card}
    (h₁ : card_compare repo a b = some .lt)
    (h₂ : card_compare repo b c = some .lt) :
    card_compare repo a c = some .lt := by
  rcases ha : card_date repo a with _ | da
  · rw [card_compare_none_left ha] at h₁
    exact Option.noConfusion h₁
  rcases hb : card_date repo b with _ | db
  · rw [card_compare_none_right hb] at h₁
    exact Option.noConfusion h₁
  rcases hc : card_date repo c with _ | dc
  · rw [card_compare_none_right hc] at h₂
    exact Option.noConfusion h₂
  rw [card_compare_some_some ha hb] at h₁
  rw [card_compare_some_some hb hc] at h₂
  rw [card_compare_some_some ha hc]
  by_cases hab : da = db <;> by_cases hbc : db = dc
  · subst hab hbc
    rw [if_neg (by simp)] at h₁ h₂ ⊢
    exact cmpChunks_trans_lt h₁ h₂
  · subst hab
    rw [if_pos hbc] at h₂
    rw [if_pos hbc]
    exact h₂
  · subst hbc
    rw [if_pos hab] at h₁
    rw [if_pos hab]
    exact h₁
  · rw [if_pos hab] at h₁
    rw [if_pos hbc] at h₂
    have hlt : da < dc :=
      lt_trans (strCmp_eq_lt.mp (Option.some.inj h₁)) (strCmp_eq_lt.mp (Option.some.inj h₂))
    rw [if_pos (ne_of_lt hlt)]
    exact congrArg some (strCmp_eq_lt.mpr hlt)

/-- The scan of Python `min(cards, key=cmp_to_key(comparator))`: walk left to
right, replacing the current best exactly when the new item compares strictly
less; a raised comparison aborts (`none`). -/
def selectMinGo (repo : List MtgSet) (best : Card) : List Card → Option Card
  | [] => some best
  | y :: ys =>
    match card_compare repo y best with
    | none => none
    | some .lt => selectMinGo repo y ys
    | some _ => selectMinGo repo best ys

/-- Python `min` over a card list under `_card_compare`; `min` of an empty
sequence raises `ValueError`, modelled as `none`. -/
def selectMin (repo : List MtgSet) : List Card → Option Card
  | [] => none
  | x :: xs => selectMinGo repo x xs

/-- Non-strict comparison: strictly less, or indistinguishable to the
comparator. -/
def cle (repo : List MtgSet) (a b : Card) : Prop :=
  card_compare repo a b = some .lt ∨ card_compare repo a b = some .eq

theorem cle_trans {repo : List MtgSet} {a b c : Card}
    (h₁ : cle repo a b) (h₂ : cle repo b c) : cle repo a c := by
  rcases h₁ with h₁ | h₁ <;> rcases h₂ with h₂ | h₂
  · exact Or.inl (card_compare_trans_lt h₁ h₂)
  · exact Or.inl ((card_compare_congr_right h₂ a) ▸ h₁)
  · exact Or.inl ((card_compare_congr_left h₁ c) ▸ h₂)
  · exact Or.inr ((card_compare_congr_left h₁ c) ▸ h₂)

theorem selectMinGo_spec {repo : List MtgSet} :
    ∀ (l : List Card) (b m : Card), selectMinGo repo b l = some m →
      (m = b ∨ m ∈ l) ∧ ∀ x, (x = b ∨ x ∈ l) → cle repo m x ∨ x = m
  | [], b, m => by
    intro h
    have hm : b = m := Option.some.inj h
    subst hm
    refine ⟨Or.inl rfl, ?_⟩
    rintro x (rfl | hx)
    · exact Or.inr rfl
    · exact absurd hx (List.not_mem_nil x)
  | y :: ys, b, m => by
    intro h
    unfold selectMinGo at h
    rcases hcmp : card_compare repo y b with _ | o <;> rw [hcmp] at h
    · exact Option.noConfusion h
    cases o with
    | lt =>
      obtain ⟨hmem, hmin⟩ := selectMinGo_spec ys y m h
      have hmy : cle repo m y ∨ y = m := hmin y (Or.inl rfl)
      refine ⟨Or.inr (by rcases hmem with rfl | hm; exacts [List.mem_cons_self _ _, List.mem_cons_of_mem _ hm]), ?_⟩
      rintro x (rfl | hx)
      · rcases hmy with hmy | rfl
        · exact Or.inl (cle_trans hmy (Or.inl hcmp))
        · exact Or.inl (Or.inl hcmp)
      · rcases List.mem_cons.mp hx with rfl | hx
        · exact hmin x (Or.inl rfl)
        · exact hmin x (Or.inr hx)
    | eq =>
      obtain ⟨hmem, hmin⟩ := selectMinGo_spec ys b m h
      have hby : cle repo b y := Or.inr (card_compare_eq_symm hcmp)
      refine ⟨by rcases hmem with rfl | hm; exacts [Or.inl rfl, Or.inr (List.mem_cons_of_mem _ hm)], ?_⟩
      rintro x (rfl | hx)
      · exact hmin x (Or.inl rfl)
      · rcases List.mem_cons.mp hx with rfl | hx
        · rcases hmin b (Or.inl rfl) with hmb | rfl
          · exact Or.inl (cle_trans hmb hby)
          · exact Or.inl hby
        · exact hmin x (Or.inr hx)
    | gt =>
      obtain ⟨hmem, hmin⟩ := selectMinGo_spec ys b m h
      have hby : cle repo b y := Or.inl (card_compare_lt_iff_gt.mpr hcmp)
      refine ⟨by rcases hmem with rfl | hm; exacts [Or.inl rfl, Or.inr (List.mem_cons_of_mem _ hm)], ?_⟩
      rintro x (rfl | hx)
      · exact hmin x (Or.inl rfl)
      · rcases List.mem_cons.mp hx with rfl | hx
        · rcases hmin b (Or.inl rfl) with hmb | rfl
          · exact Or.inl (cle_trans hmb hby)
          · exact Or.inl hby
        · exact hmin x (Or.inr hx)

/-- The scan of `min` succeeds and returns a minimal element: it belongs to
the scanned list and no other element compares strictly below it. -/
theorem selectMin_spec {repo : List MtgSet} {l : List Card} {m : Card}
    (h : selectMin repo l = some m) :
    m ∈ l ∧ ∀ x ∈ l, cle repo m x ∨ x = m := by
  match l with
  | [] => exact Option.noConfusion h
  | a :: as =>
    obtain ⟨hmem, hmin⟩ := selectMinGo_spec as a m h
    refine ⟨by rcases hmem with rfl | hm; exacts [List.mem_cons_self _ _, List.mem_cons_of_mem _ hm], ?_⟩
    intro x hx
    rcases List.mem_cons.mp hx with rfl | hx
    · exact hmin x (Or.inl rfl)
    · exact hmin x (Or.inr hx)

/-- When every pairwise comparison among the scanned cards is defined, the
`min` scan never raises. -/
theorem selectMinGo_isSome {repo : List MtgSet} :
    ∀ (l : List Card) (b : Card),
      (∀ x, (x = b ∨ x ∈ l) → ∀ y, (y = b ∨ y ∈ l) → (card_compare repo x y).isSome) →
      (selectMinGo repo b l).isSome
  | [], b => by
    intro _
    simp [selectMinGo]
  | y :: ys, b => by
    intro hdef
    unfold selectMinGo
    rcases hcmp : card_compare repo y b with _ | o
    · have := hdef y (Or.inr (List.mem_cons_self _ _)) b (Or.inl rfl)
      rw [hcmp] at this
      exact absurd this (by simp)
    cases o with
    | lt =>
      exact selectMinGo_isSome ys y (fun x hx z hz =>
        hdef x (by rcases hx with rfl | hx; exacts [Or.inr (List.mem_cons_self _ _), Or.inr (List.mem_cons_of_mem _ hx)])
             z (by rcases hz with rfl | hz; exacts [Or.inr (List.mem_cons_self _ _), Or.inr (List.mem_cons_of_mem _ hz)]))
    | eq =>
      exact selectMinGo_isSome ys b (fun x hx z hz =>
        hdef x (by rcases hx with rfl | hx; exacts [Or.inl rfl, Or.inr (List.mem_cons_of_mem _ hx)])
             z (by rcases hz with rfl | hz; exacts [Or.inl rfl, Or.inr (List.mem_cons_of_mem _ hz)]))
    | gt =>
      exact selectMinGo_isSome ys b (fun x hx z hz =>
        hdef x (by rcases hx with rfl | hx; exacts [Or.inl rfl, Or.inr (List.mem_cons_of_mem _ hx)])
             z (by rcases hz with rfl | hz; exacts [Or.inl rfl, Or.inr (List.mem_cons_of_mem _ hz)]))

/-- Permutation invariance of the `min` scan under pairwise-defined
comparisons and no comparator ties between distinct cards. -/
theorem selectMin_perm {repo : List MtgSet} {l l' : List Card}
    (hperm : l.Perm l')
    (hdef : ∀ x ∈ l, ∀ y ∈ l, (card_compare repo x y).isSome)
    (hties : ∀ x ∈ l, ∀ y ∈ l, card_compare repo x y = some .eq → x = y) :
    selectMin repo l = selectMin repo l' := by
  match hl : l, hl' : l' with
  | [], l' =>
    have : l' = [] := hperm.nil_eq.symm
    rw [this]
  | a :: as, [] =>
    exact absurd hperm.symm.nil_eq (by simp)
  | a :: as, a' :: as' =>
    have hmv : ∀ x, x ∈ a :: as ↔ x ∈ a' :: as' := fun x => hperm.mem_iff
    have h₁ : (selectMinGo repo a as).isSome :=
      selectMinGo_isSome as a (fun x hx z hz =>
        hdef x (by rcases hx with rfl | hx; exacts [List.mem_cons_self _ _, List.mem_cons_of_mem _ hx])
             z (by rcases hz with rfl | hz; exacts [List.mem_cons_self _ _, List.mem_cons_of_mem _ hz]))
    have h₂ : (selectMinGo repo a' as').isSome :=
      selectMinGo_isSome as' a' (fun x hx z hz => by
        have hx' : x ∈ a :: as := (hmv x).mpr (by rcases hx with rfl | hx; exacts [List.mem_cons_self _ _, List.mem_cons_of_mem _ hx])
        have hz' : z ∈ a :: as := (hmv z).mpr (by rcases hz with rfl | hz; exacts [List.mem_cons_self _ _, List.mem_cons_of_mem _ hz])
        exact hdef x hx' z hz')
    obtain ⟨m, hm⟩ := Option.isSome_iff_exists.mp h₁
    obtain ⟨m', hm'⟩ := Option.isSome_iff_exists.mp h₂
    obtain ⟨hmem, hmin⟩ := selectMin_spec (l := a :: as) (show selectMin repo (a :: as) = some m from hm)
    obtain ⟨hmem', hmin'⟩ := selectMin_spec (l := a' :: as') (show selectMin repo (a' :: as') = some m' from hm')
    have hmm : m = m' := by
      have hm'l : m' ∈ a :: as := (hmv m').mpr hmem'
      have hml' : m ∈ a' :: as' := (hmv m).mp hmem
      rcases hmin m' hm'l with hle | heq
      · rcases hmin' m hml' with hle' | heq'
        · rcases hle with hlt | heq
          · rcases hle' with hlt' | heq'
            · have := card_compare_lt_iff_gt.mp hlt
              rw [this] at hlt'
              · exact absurd (Option.some.inj hlt') (by simp)
            · exact hties m hmem m' hm'l (card_compare_eq_symm heq')
          · exact hties m hmem m' hm'l heq
        · exact heq'
      · exact heq.symm
    show selectMinGo repo a as = selectMinGo repo a' as'
    rw [hm, hm', hmm]

/-- The multi-face separator used by `translator`. -/
def SEPARATOR : String := " // "

/-- A `(name, set_code, collector_number)` triple (`CardInfo`). -/
abbrev CardInfo : Type := String × String × String

/-- Test whether `pat` is a leading segment of `s`. -/
def listStartsWith : List Char → List Char → Bool
  | [], _ => true
  | _ :: _, [] => false
  | p :: ps, c :: cs => p == c && listStartsWith ps cs

/-- Split a character list at the first occurrence of `sep`
(Python `name.split(sep, maxsplit=1)` when `sep in name`); `none` when `sep`
does not occur. -/
def listSplitFirst (sep : List Char) : List Char → Option (List Char × List Char)
  | [] => none
  | c :: cs =>
    if listStartsWith sep (c :: cs) then some ([], (c :: cs).drop sep.length)
    else
      match listSplitFirst sep cs with
      | some (a, b) => some (c :: a, b)
      | none => none

/-- `serialize_card_by_name`: when the name contains the separator, query the
oracle with the first face only. -/
def serialize_card_by_name (name : String) : String :=
  match listSplitFirst SEPARATOR.data name.data with
  | some (a, _) => String.mk a
  | none => name

/-- `deserialize_card`: when the oracle reports face names and the original
input name is not itself one of them, join all the face names with the
separator; otherwise keep the name reported by the oracle. -/
def deserialize_card (card : Card) (name : String) : String :=
  if card.names ≠ [] ∧ name ∉ card.names then String.intercalate SEPARATOR card.names
  else card.name

/-- The undecorated body of `CubeEntryMapper._fetch_oldest`: keep the oracle
hits whose name equals the queried name exactly and whose set is eligible,
then take the minimum under `_card_compare`. -/
def fetch_oldest_core (univ : List MtgSet) (oracle : String → List Card)
    (name : String) : Option Card :=
  selectMin (setRepo univ)
    ((oracle name).filter (fun c => c.name == name && setRepoContains univ c.set))

/-- `_fetch_oldest` as wrapped by the `translator` decorator: serialize the
queried name, fetch, then reconcile the face name. -/
def fetch_oldest (univ : List MtgSet) (oracle : String → List Card)
    (name : String) : Option CardInfo :=
  (fetch_oldest_core univ oracle (serialize_card_by_name name)).map
    (fun card => (deserialize_card card name, card.set, card.number))

/-- `ExtraCardRepository._EXTRAS`: name to `(set code, collector number)`. -/
def EXTRAS : List (String × String × String) :=
  [("Nalathni Dragon", "PDRC", "1"),
   ("Arena", "PHPR", "1"),
   ("Sewers of Estark", "PHPR", "2"),
   ("Windseeker Centaur", "PHPR", "3"),
   ("Giant Badger", "PHPR", "4"),
   ("Mana Crypt", "PHPR", "5"),
   ("Rick, Steadfast Leader", "SLD", "143"),
   ("Daryl, Hunter of Walkers", "SLD", "144"),
   ("Glenn, the Voice of Calm", "SLD", "145"),
   ("Michonne, Ruthless Survivor", "SLD", "146"),
   ("Negan, the Cold-Blooded", "SLD", "147"),
   ("Lucille", "SLD", "581"),
   ("Aswan Jaguar", "PMIC", "1"),
   ("Gleemox", "PRM", "26584")]

/-- `ExtraCardRepository.__contains__`. -/
def extraContains (name : String) : Bool :=
  EXTRAS.any (fun e => e.1 == name)

/-- `ExtraCardRepository.__getitem__`: `(name,) + self._cards[name]`. -/
def extraLookup (name : String) : Option CardInfo :=
  (EXTRAS.find? (fun e => e.1 == name)).map (fun e => (name, e.2.1, e.2.2))

/-- A raw scraped entry (`RawCubeEntry`): card name and bucket label. -/
structure RawCubeEntry : Type where
  name : String
  bucket : String
deriving DecidableEq

/-- A resolved entry (`CubeEntry`): canonical name, collector number, set
code, bucket — in the declaration order that `order=True` compares by. -/
structure CubeEntry : Type where
  name : String
  number : String
  set_code : String
  bucket : String
deriving DecidableEq

/-- `CubeEntryMapper.map`: the override table takes priority; otherwise the
oracle is queried (`_obtain_from_extra` / `_obtain_from_api`).  The
`functools.cache` memoization affects how often work is done, never the
result, so it does not appear in the model. -/
def mapEntry (univ : List MtgSet) (oracle : String → List Card)
    (entry : RawCubeEntry) : Option CubeEntry :=
  if extraContains entry.name then
    (extraLookup entry.name).map
      (fun info => ⟨info.1, info.2.2, info.2.1, entry.bucket⟩)
  else
    (fetch_oldest univ oracle entry.name).map
      (fun info => ⟨info.1, info.2.2, info.2.1, entry.bucket⟩)

/-- The scraped cube (`RawCube`). -/
structure RawCube : Type where
  name : String
  date : String
  author : String
  entries : List RawCubeEntry

/-- Fuel-indexed core of `firstDedup`, structurally recursive so that it
computes by kernel reduction; the fuel is always at least the list length. -/
def firstDedupF {α : Type} [DecidableEq α] : Nat → List α → List α
  | _, [] => []
  | 0, _ :: _ => []
  | fuel + 1, x :: xs => x :: firstDedupF fuel (xs.filter (fun y => y ≠ x))

/-- First-occurrence deduplication: the key order of a Python dict or
`collections.Counter` built by insertion. -/
def firstDedup {α : Type} [DecidableEq α] (l : List α) : List α :=
  firstDedupF l.length l

theorem firstDedupF_step {α : Type} [DecidableEq α] :
    ∀ (f : Nat) (l : List α), l.length ≤ f →
      firstDedupF (f + 1) l = firstDedupF f l
  | f, [] => fun _ => by cases f <;> rfl
  | 0, x :: xs => fun h => by simp at h
  | f + 1, x :: xs => fun h => by
    show x :: firstDedupF (f + 1) (xs.filter (fun y => y ≠ x)) =
      x :: firstDedupF f (xs.filter (fun y => y ≠ x))
    have hxs : xs.length ≤ f := by
      simpa using Nat.succ_le_succ_iff.mp (by simpa using h)
    rw [firstDedupF_step f (xs.filter (fun y => y ≠ x))
      (le_trans (List.length_filter_le _ _) hxs)]

theorem firstDedupF_mono {α : Type} [DecidableEq α] (l : List α) :
    ∀ (k f : Nat), l.length ≤ f → firstDedupF (f + k) l = firstDedupF f l
  | 0, f => fun _ => rfl
  | k + 1, f => fun h => by
    rw [show f + (k + 1) = (f + k) + 1 from rfl,
      firstDedupF_step (f + k) l (le_trans h (Nat.le_add_right f k)),
      firstDedupF_mono l k f h]

/-- The defining recursion of `firstDedup`: keep the head, deduplicate the
tail with the head filtered out. -/
theorem firstDedup_cons {α : Type} [DecidableEq α] (x : α) (xs : List α) :
    firstDedup (x :: xs) = x :: firstDedup (xs.filter (fun y => y ≠ x)) := by
  show x :: firstDedupF xs.length (xs.filter (fun y => y ≠ x)) =
    x :: firstDedupF (xs.filter (fun y => y ≠ x)).length (xs.filter (fun y => y ≠ x))
  have h := List.length_filter_le (fun y => y ≠ x) xs
  rcases Nat.exists_eq_add_of_le h with ⟨k, hk⟩
  rw [hk, firstDedupF_mono _ k _ (le_refl _)]

/-- `collections.Counter` over a list: keys in first-occurrence order, each
with its multiplicity. -/
def counterList {α : Type} [DecidableEq α] (l : List α) : List (α × Nat) :=
  (firstDedup l).map (fun x => (x, l.count x))

/-- The resolved cube (`Cube`): metadata plus the `Counter` of entries. -/
structure Cube : Type where
  name : String
  date : String
  author : String
  entries : List (CubeEntry × Nat)
deriving DecidableEq

/-- `Cube.__len__`: the total multiplicity of the counter. -/
def cubeLen (cube : Cube) : Nat :=
  (cube.entries.map (fun p => p.2)).sum

/-- `Cube.from_raw`: resolve every raw entry in order (a failed resolution
aborts the whole construction) and tally the resolved cards. -/
def fromRaw (univ : List MtgSet) (oracle : String → List Card)
    (raw : RawCube) : Option Cube :=
  (raw.entries.mapM (mapEntry univ oracle)).map
    (fun cards => ⟨raw.name, raw.date, raw.author, counterList cards⟩)

theorem charRunsGo_all_digits :
    ∀ (cs acc : List Char), (∀ c ∈ cs, c.isDigit = true) →
      charRunsGo true acc cs = [acc.reverse ++ cs]
  | [], acc => by
    intro _
    simp [charRunsGo]
  | c :: cs, acc => by
    intro h
    have hc : c.isDigit = true := h c (List.mem_cons_self _ _)
    rw [charRunsGo, if_pos (by simp [hc])]
    rw [charRunsGo_all_digits cs (c :: acc) (fun d hd => h d (List.mem_cons_of_mem _ hd))]
    simp

/-- A nonempty all-digit collector number chunkifies to the single integer
chunk Python `int` would parse. -/
theorem chunkify_all_digits {s : String} (hne : s.data ≠ [])
    (hdig : s.data.all Char.isDigit = true) :
    chunkify s = [.num (digitsToNat s.data)] := by
  unfold chunkify charRuns
  rcases h : s.data with _ | ⟨c, cs⟩
  · exact absurd h hne
  · have hall : ∀ d ∈ c :: cs, d.isDigit = true := by
      intro d hd
      have := List.all_eq_true.mp (h ▸ hdig) d hd
      simpa using this
    show List.map toChunk (charRunsGo c.isDigit [c] cs) =
      [Chunk.num (digitsToNat (c :: cs))]
    rw [show c.isDigit = true from hall c (List.mem_cons_self _ _)]
    rw [charRunsGo_all_digits cs [c] (fun d hd => hall d (List.mem_cons_of_mem _ hd))]
    simp only [List.map_cons, List.map_nil, List.reverse_cons, List.reverse_nil,
      List.nil_append, List.singleton_append]
    rw [toChunk, if_pos (by simpa using hall)]

/-- On two nonempty all-digit collector numbers the chunked comparator is the
integer comparison of their parsed values. -/
theorem cmpChunks_numeric {a b : String}
    (hna : a.data ≠ []) (hda : a.data.all Char.isDigit = true)
    (hnb : b.data ≠ []) (hdb : b.data.all Char.isDigit = true) :
    cmpChunks (chunkify a) (chunkify b) =
      some (pyCmp (digitsToNat a.data) (digitsToNat b.data)) := by
  rw [chunkify_all_digits hna hda, chunkify_all_digits hnb hdb]
  show cmpChunks [.num (digitsToNat a.data)] [.num (digitsToNat b.data)] = _
  rcases h : pyCmp (digitsToNat a.data) (digitsToNat b.data) with _ | _ | _ <;>
    simp [cmpChunks, cmpChunk, h]

/-- Claim C2 counterexample: the chunked comparator is not a total order on
collector-number strings — comparing the digit string `"1"` with the
non-digit string `"a"` reaches a cross-type chunk comparison, which raises
`TypeError` in Python (modelled as `none`), so the two distinct strings are
ordered neither way. -/
theorem chunked_comparator_cex :
    cmpChunks (chunkify "1") (chunkify "a") = none ∧
    cmpChunks (chunkify "a") (chunkify "1") = none ∧
    ("1" : String) ≠ "a" := by
  refine ⟨by decide, by decide, by decide⟩

/-- Claim C2 (amended): on pairs of collector numbers where the chunked
comparison is defined it behaves as a strict order — `eq` exactly on equal
chunk sequences, asymmetric, and transitive — and it orders pure-numeric
strings by their integer values (hence `"9"` before `"10"`) and puts `"9"`
before `"9a"` by structural run comparison. -/
theorem chunked_comparator_order :
    (∀ a b : String,
      cmpChunks (chunkify a) (chunkify b) = some .eq ↔ chunkify a = chunkify b) ∧
    (∀ a b : String,
      cmpChunks (chunkify a) (chunkify b) = some .lt ↔
        cmpChunks (chunkify b) (chunkify a) = some .gt) ∧
    (∀ a b c : String,
      cmpChunks (chunkify a) (chunkify b) = some .lt →
      cmpChunks (chunkify b) (chunkify c) = some .lt →
      cmpChunks (chunkify a) (chunkify c) = some .lt) ∧
    (∀ a b : String,
      a.data ≠ [] → a.data.all Char.isDigit = true →
      b.data ≠ [] → b.data.all Char.isDigit = true →
      cmpChunks (chunkify a) (chunkify b) =
        some (pyCmp (digitsToNat a.data) (digitsToNat b.data))) ∧
    cmpChunks (chunkify "9") (chunkify "10") = some .lt ∧
    cmpChunks (chunkify "9") (chunkify "9a") = some .lt := by
  refine ⟨fun a b => cmpChunks_eq_eq, fun a b => cmpChunks_lt_iff_gt,
    fun a b c => cmpChunks_trans_lt,
    fun a b hna hda hnb hdb => cmpChunks_numeric hna hda hnb hdb,
    by decide, by decide⟩

/-- Witness for the amended C2 theorem at concrete inputs: transitivity
applied to `"2" < "9" < "10"` and the integer comparison of `"2"` versus
`"10"`. -/
theorem chunked_comparator_order_witness :
    cmpChunks (chunkify "2") (chunkify "10") = some .lt ∧
    cmpChunks (chunkify "2") (chunkify "10") =
      some (pyCmp (digitsToNat "2".data) (digitsToNat "10".data)) :=
  ⟨chunked_comparator_order.2.2.1 "2" "9" "10" (by decide) (by decide),
   chunked_comparator_order.2.2.2.1 "2" "10" (by decide) (by decide)
     (by decide) (by decide)⟩

/-- Claim C5: for a name outside the override table the selector keeps exactly
the oracle candidates with the queried name and an eligible set code, and a
successful fetch returns a minimum of those candidates under the two-key
comparator (release date, then chunked collector number). -/
theorem selector_keeps_and_minimizes (univ : List MtgSet)
    (oracle : String → List Card) (name : String) (m : Card) :
    (∀ x, x ∈ (oracle name).filter
        (fun c => c.name == name && setRepoContains univ c.set) ↔
      (x ∈ oracle name ∧ x.name = name ∧ setRepoContains univ x.set = true)) ∧
    (fetch_oldest_core univ oracle name = some m →
      m ∈ (oracle name).filter
        (fun c => c.name == name && setRepoContains univ c.set) ∧
      ∀ x ∈ (oracle name).filter
          (fun c => c.name == name && setRepoContains univ c.set),
        card_compare (setRepo univ) m x = some .lt ∨
        card_compare (setRepo univ) m x = some .eq ∨ x = m) := by
  constructor
  · intro x
    simp [List.mem_filter, and_assoc]
  · intro h
    obtain ⟨hmem, hmin⟩ := selectMin_spec h
    refine ⟨hmem, fun x hx => ?_⟩
    rcases hmin x hx with hle | heq
    · rcases hle with hlt | he
      · exact Or.inl hlt
      · exact Or.inr (Or.inl he)
    · exact Or.inr (Or.inr heq)

def univW : List MtgSet :=
  [⟨"LEB", "core", "1993-10-04"⟩, ⟨"3ED", "core", "1994-04-01"⟩]

def cardW1 : Card := ⟨"Shivan Dragon", [], "LEB", "170"⟩

def cardW2 : Card := ⟨"Shivan Dragon", [], "3ED", "170"⟩

def oracleW : String → List Card := fun n =>
  if n == "Shivan Dragon" then [cardW2, cardW1] else []

/-- Witness for C5: a two-candidate oracle; the older print wins. -/
theorem selector_keeps_and_minimizes_witness :
    cardW1 ∈ (oracleW "Shivan Dragon").filter
      (fun c => c.name == "Shivan Dragon" && setRepoContains univW c.set) ∧
    ∀ x ∈ (oracleW "Shivan Dragon").filter
        (fun c => c.name == "Shivan Dragon" && setRepoContains univW c.set),
      card_compare (setRepo univW) cardW1 x = some .lt ∨
      card_compare (setRepo univW) cardW1 x = some .eq ∨ x = cardW1 :=
  (selector_keeps_and_minimizes univW oracleW "Shivan Dragon" cardW1).2 (by decide)

def univ6 : List MtgSet :=
  [⟨"AAA", "core", "1993-08-05"⟩, ⟨"BBB", "expansion", "1993-08-05"⟩]

def card6a : Card := ⟨"Twin", [], "AAA", "1"⟩

def card6b : Card := ⟨"Twin", [], "BBB", "1"⟩

/-- Claim C6 counterexample: two eligible prints from different sources with
the same release date and the same collector number tie under the comparator,
and Python `min` then returns whichever came first — the stated precondition
(no two distinct prints from the *same* source share a number) holds, yet the
selection is order-dependent. -/
theorem selector_determinism_cex :
    selectMin (setRepo univ6) [card6a, card6b] = some card6a ∧
    selectMin (setRepo univ6) [card6b, card6a] = some card6b ∧
    card6a ≠ card6b ∧
    ([card6a, card6b] : List Card).Perm [card6b, card6a] ∧
    (∀ x ∈ [card6a, card6b], ∀ y ∈ [card6a, card6b],
      x.set = y.set → x.number = y.number → x = y) := by
  refine ⟨by decide, by decide, by decide, by decide, by decide⟩

/-- Claim C6 (amended): the selection is permutation-invariant once the
comparator is defined on every pair of candidates and no two distinct
candidates compare as equal (same release date and same chunkified collector
number) — a precondition strictly stronger than the claimed
"no two prints from the same source share a number". -/
theorem selector_determinism (univ : List MtgSet) (l l' : List Card)
    (hperm : l.Perm l')
    (hdef : ∀ x ∈ l, ∀ y ∈ l, (card_compare (setRepo univ) x y).isSome)
    (hties : ∀ x ∈ l, ∀ y ∈ l,
      card_compare (setRepo univ) x y = some .eq → x = y) :
    selectMin (setRepo univ) l = selectMin (setRepo univ) l' :=
  selectMin_perm hperm hdef hties

def card6c : Card := ⟨"Twin", [], "BBB", "2"⟩

/-- Witness for the amended C6 theorem: distinct dates or distinct chunk
sequences break all ties, so both orders select the same card. -/
theorem selector_determinism_witness :
    selectMin (setRepo univ6) [card6a, card6c] =
      selectMin (setRepo univ6) [card6c, card6a] :=
  selector_determinism univ6 [card6a, card6c] [card6c, card6a]
    (by decide) (by decide) (by decide)

/-- Claim C7: a source code is accepted by the repository exactly when some
source with that code has an allowed product type and the code is not
denylisted; in particular a denylisted code is rejected no matter its type. -/
theorem eligibility_iff (univ : List MtgSet) (code : String) :
    (setRepoContains univ code = true ↔
      (∃ s ∈ univ, s.code = code ∧ s.set_type ∈ SET_TYPES) ∧
        code ∉ BLACKLISTED_SET_CODES) ∧
    (code ∈ BLACKLISTED_SET_CODES → setRepoContains univ code = false) := by
  constructor
  · unfold setRepoContains setRepo setWhere
    simp only [List.any_eq_true, List.mem_filter, beq_iff_eq, Bool.not_eq_eq_eq_not,
      Bool.not_true, Bool.and_eq_true, decide_eq_true_eq]
    constructor
    · rintro ⟨s, ⟨⟨hs, ht⟩, hb⟩, rfl⟩
      refine ⟨⟨s, hs, rfl, by simpa using ht⟩, ?_⟩
      simpa using hb
    · rintro ⟨⟨s, hs, rfl, ht⟩, hb⟩
      exact ⟨s, ⟨⟨hs, by simpa using ht⟩, by simpa using hb⟩, rfl⟩
  · intro hb
    unfold setRepoContains setRepo setWhere
    rw [Bool.eq_false_iff]
    intro hany
    simp only [List.any_eq_true, List.mem_filter, beq_iff_eq] at hany
    obtain ⟨s, ⟨_, hnb⟩, hcode⟩ := hany
    rw [hcode] at hnb
    simp [hb] at hnb

/-- Witness for C7: `"LEA"` is denylisted, so it is rejected even though its
record in the universe has the allowed type `core`. -/
theorem eligibility_iff_witness :
    setRepoContains [⟨"LEA", "core", "1993-08-05"⟩] "LEA" = false :=
  (eligibility_iff [⟨"LEA", "core", "1993-08-05"⟩] "LEA").2 (by decide)

def univ3 : List MtgSet := [⟨"APC", "expansion", "2001-06-04"⟩]

def card3A : Card := ⟨"Fire", ["Fire", "Ice"], "APC", "128a"⟩

def oracle3 : String → List Card := fun n => if n == "Fire" then [card3A] else []

/-- Claim C3 counterexample: the oracle reports the face list
`["Fire", "Ice"]`, but querying the pipeline with the single face `"Fire"`
returns `"Fire"` unchanged — `deserialize_card` only joins the faces when the
*input* name is not itself a face name — so the composite `"Fire // Ice"` is
not produced for every input. -/
theorem face_roundtrip_cex :
    fetch_oldest univ3 oracle3 "Fire" = some ("Fire", "APC", "128a") ∧
    card3A.names = ["Fire", "Ice"] ∧
    ("Fire" : String) ≠ "Fire // Ice" := by
  refine ⟨by decide, by decide, by decide⟩

/-- Claim C3 (amended): when the fetched record carries face names, the
pipeline returns the joined composite name exactly when the input name is
*not* itself one of the faces (in particular for the composite input
`"A // B"`); when the input is a face name, or the record has no face list,
the oracle record's own name is returned unchanged. -/
theorem face_roundtrip (univ : List MtgSet) (oracle : String → List Card)
    (name : String) (card : Card)
    (h : fetch_oldest_core univ oracle (serialize_card_by_name name) = some card) :
    (card.names ≠ [] → name ∉ card.names →
      fetch_oldest univ oracle name =
        some (String.intercalate SEPARATOR card.names, card.set, card.number)) ∧
    ((card.names = [] ∨ name ∈ card.names) →
      fetch_oldest univ oracle name = some (card.name, card.set, card.number)) := by
  constructor
  · intro h₁ h₂
    unfold fetch_oldest
    rw [h]
    show some (deserialize_card card name, card.set, card.number) = _
    rw [deserialize_card, if_pos ⟨h₁, h₂⟩]
  · intro hcase
    unfold fetch_oldest
    rw [h]
    show some (deserialize_card card name, card.set, card.number) = _
    rw [deserialize_card, if_neg ?_]
    rintro ⟨hne, hnotin⟩
    rcases hcase with he | hm
    · exact hne he
    · exact hnotin hm

/-- Witness for the amended C3 theorem: the composite input `"Fire // Ice"`
is serialized to `"Fire"`, fetched, and deserialized back to
`"Fire // Ice"`. -/
theorem face_roundtrip_witness :
    fetch_oldest univ3 oracle3 "Fire // Ice" =
      some (String.intercalate SEPARATOR card3A.names, card3A.set, card3A.number) :=
  (face_roundtrip univ3 oracle3 "Fire // Ice" card3A (by decide)).1
    (by decide) (by decide)

/-- Claim C4: an entry whose name sits in the override table resolves
identically under any oracle and any set universe (neither is consulted), and
`"Mana Crypt"` in particular resolves to set `"PHPR"`, number `"5"`, with its
bucket preserved. -/
theorem override_priority :
    (∀ (u₁ u₂ : List MtgSet) (o₁ o₂ : String → List Card) (e : RawCubeEntry),
      extraContains e.name = true → mapEntry u₁ o₁ e = mapEntry u₂ o₂ e) ∧
    (∀ (u : List MtgSet) (o : String → List Card) (b : String),
      mapEntry u o ⟨"Mana Crypt", b⟩ = some ⟨"Mana Crypt", "5", "PHPR", b⟩) := by
  constructor
  · intro u₁ u₂ o₁ o₂ e h
    unfold mapEntry
    rw [if_pos h, if_pos h]
  · intro u o b
    unfold mapEntry
    rw [if_pos (show extraContains "Mana Crypt" = true by decide)]
    rw [show extraLookup "Mana Crypt" = some ("Mana Crypt", "PHPR", "5") from by decide]
    rfl

/-- Witness for C4: with an empty universe and an empty oracle the override
entry still resolves, and to the fixed record. -/
theorem override_priority_witness :
    mapEntry [] (fun _ => []) ⟨"Mana Crypt", "Artifact"⟩ =
      mapEntry univ3 oracle3 ⟨"Mana Crypt", "Artifact"⟩ ∧
    mapEntry [] (fun _ => []) ⟨"Mana Crypt", "Artifact"⟩ =
      some ⟨"Mana Crypt", "5", "PHPR", "Artifact"⟩ :=
  ⟨override_priority.1 [] univ3 (fun _ => []) oracle3 ⟨"Mana Crypt", "Artifact"⟩
      (by decide),
   override_priority.2 [] (fun _ => []) "Artifact"⟩

theorem mapM_eq_none_of_mem {α β : Type} (f : α → Option β) :
    ∀ (l : List α) (a : α), a ∈ l → f a = none → l.mapM f = none
  | [], a => by
    intro h _
    exact absurd h (List.not_mem_nil a)
  | x :: xs, a => by
    intro hmem hnone
    rw [List.mapM_cons]
    rcases List.mem_cons.mp hmem with rfl | hmem
    · rw [hnone]
      rfl
    · rw [mapM_eq_none_of_mem f xs a hmem hnone]
      cases f x <;> rfl

theorem mapM_some_length {α β : Type} (f : α → Option β) :
    ∀ {l : List α} {l' : List β}, l.mapM f = some l' → l'.length = l.length
  | [], l' => by
    intro h
    have : l' = [] := by simpa using (Option.some.inj h).symm
    simp [this]
  | x :: xs, l' => by
    intro h
    rw [List.mapM_cons] at h
    rcases hx : f x with _ | y <;> rw [hx] at h
    · exact Option.noConfusion h
    rcases hxs : xs.mapM f with _ | ys <;> rw [hxs] at h
    · exact Option.noConfusion h
    have : l' = y :: ys := (Option.some.inj h).symm
    subst this
    simp [mapM_some_length f hxs]

theorem mem_firstDedup {α : Type} [DecidableEq α] :
    ∀ (l : List α) (a : α), a ∈ firstDedup l ↔ a ∈ l
  | [], a => by simp [firstDedup, firstDedupF]
  | x :: xs, a => by
    rw [firstDedup_cons]
    by_cases hax : a = x
    · subst hax
      simp
    · simp only [List.mem_cons, hax, false_or]
      rw [mem_firstDedup (xs.filter (fun y => y ≠ x)) a]
      simp [List.mem_filter, hax]
termination_by l => l.length
decreasing_by
  exact Nat.lt_succ_of_le (List.length_filter_le _ _)

theorem nodup_firstDedup {α : Type} [DecidableEq α] :
    ∀ (l : List α), (firstDedup l).Nodup
  | [] => by simp [firstDedup, firstDedupF]
  | x :: xs => by
    rw [firstDedup_cons]
    refine List.nodup_cons.mpr ⟨?_, nodup_firstDedup (xs.filter (fun y => y ≠ x))⟩
    intro hmem
    have := (mem_firstDedup _ _).mp hmem
    simp [List.mem_filter] at this
termination_by l => l.length
decreasing_by
  exact Nat.lt_succ_of_le (List.length_filter_le _ _)

theorem count_add_length_filter_ne {α : Type} [DecidableEq α] (x : α) :
    ∀ xs : List α, xs.count x + (xs.filter (fun y => y ≠ x)).length = xs.length
  | [] => rfl
  | y :: ys => by
    by_cases hyx : y = x
    · subst hyx
      rw [List.count_cons_self, List.filter_cons_of_neg (by simp)]
      have := count_add_length_filter_ne y ys
      simp only [List.length_cons]
      omega
    · rw [List.count_cons_of_ne (Ne.symm hyx), List.filter_cons_of_pos (by simpa using hyx)]
      have := count_add_length_filter_ne x ys
      simp only [List.length_cons]
      omega

theorem sum_counts_firstDedup {α : Type} [DecidableEq α] :
    ∀ l : List α, ((firstDedup l).map (fun x => l.count x)).sum = l.length
  | [] => by simp [firstDedup, firstDedupF]
  | x :: xs => by
    rw [firstDedup_cons]
    simp only [List.map_cons, List.sum_cons]
    have hmap : (firstDedup (xs.filter (fun y => y ≠ x))).map (fun y => (x :: xs).count y) =
        (firstDedup (xs.filter (fun y => y ≠ x))).map
          (fun y => (xs.filter (fun y => y ≠ x)).count y) := by
      apply List.map_congr_left
      intro a ha
      have hmem := (mem_firstDedup _ _).mp ha
      simp only [List.mem_filter, decide_eq_true_eq] at hmem
      rw [List.count_cons_of_ne hmem.2, List.count_filter (by simpa using hmem.2)]
    rw [hmap, sum_counts_firstDedup (xs.filter (fun y => y ≠ x))]
    rw [List.count_cons_self]
    have := count_add_length_filter_ne x xs
    simp only [List.length_cons]
    omega
termination_by l => l.length
decreasing_by
  exact Nat.lt_succ_of_le (List.length_filter_le _ _)

/-- The multiplicities collected by `counterList` sum to the length of the
underlying list. -/
theorem counterList_sum (α : Type) [DecidableEq α] (l : List α) :
    ((counterList l).map (fun p => p.2)).sum = l.length := by
  unfold counterList
  rw [List.map_map]
  exact sum_counts_firstDedup l

/-- Claim C9: when the whole raw collection resolves, the total multiplicity
of the resolved cube equals the number of raw items. -/
theorem resolved_total_multiplicity (univ : List MtgSet)
    (oracle : String → List Card) (raw : RawCube) (cube : Cube)
    (h : fromRaw univ oracle raw = some cube) :
    cubeLen cube = raw.entries.length := by
  unfold fromRaw at h
  rcases hmap : raw.entries.mapM (mapEntry univ oracle) with _ | cards <;>
    rw [hmap] at h
  · exact Option.noConfusion h
  have hcube : cube = ⟨raw.name, raw.date, raw.author, counterList cards⟩ :=
    (Option.some.inj h).symm
  subst hcube
  show ((counterList cards).map (fun p => p.2)).sum = raw.entries.length
  rw [counterList_sum, mapM_some_length (mapEntry univ oracle) hmap]

def raw9 : RawCube :=
  ⟨"Vintage Cube", "2020-12-07", "Wizards",
   [⟨"Mana Crypt", "Artifact"⟩, ⟨"Lucille", "Artifact"⟩, ⟨"Mana Crypt", "Artifact"⟩]⟩

/-- Witness for C9: three raw items, one duplicated, total multiplicity 3. -/
theorem resolved_total_multiplicity_witness :
    cubeLen ⟨"Vintage Cube", "2020-12-07", "Wizards",
      counterList [⟨"Mana Crypt", "5", "PHPR", "Artifact"⟩,
                   ⟨"Lucille", "581", "SLD", "Artifact"⟩,
                   ⟨"Mana Crypt", "5", "PHPR", "Artifact"⟩]⟩ = raw9.entries.length :=
  resolved_total_multiplicity [] (fun _ => []) raw9 _ (by decide)

/-- Claim C8: when an item outside the override table has no exact-name
eligible oracle candidate, the whole resolution aborts — `from_raw` yields
nothing and therefore nothing is ever handed to an exporter (no partial
collection). -/
theorem lookup_failure_aborts (univ : List MtgSet) (oracle : String → List Card)
    (raw : RawCube) (entry : RawCubeEntry)
    (hmem : entry ∈ raw.entries)
    (hextra : extraContains entry.name = false)
    (hempty : (oracle (serialize_card_by_name entry.name)).filter
      (fun c => c.name == serialize_card_by_name entry.name &&
        setRepoContains univ c.set) = []) :
    fromRaw univ oracle raw = none ∧
    ∀ format : Cube → String, (fromRaw univ oracle raw).map format = none := by
  have hentry : mapEntry univ oracle entry = none := by
    unfold mapEntry
    rw [if_neg (by simp [hextra])]
    unfold fetch_oldest fetch_oldest_core
    rw [hempty]
    rfl
  have hnone : fromRaw univ oracle raw = none := by
    unfold fromRaw
    rw [mapM_eq_none_of_mem (mapEntry univ oracle) raw.entries entry hmem hentry]
    rfl
  exact ⟨hnone, fun format => by rw [hnone]; rfl⟩

def raw8 : RawCube :=
  ⟨"Vintage Cube", "2020-12-07", "Wizards", [⟨"Black Lotus", "Artifact"⟩]⟩

/-- Witness for C8: an empty oracle makes the only entry unresolvable, so the
run produces no cube and no export. -/
theorem lookup_failure_aborts_witness :
    fromRaw [] (fun _ => []) raw8 = none ∧
    ∀ format : Cube → String, (fromRaw [] (fun _ => []) raw8).map format = none :=
  lookup_failure_aborts [] (fun _ => []) raw8 ⟨"Black Lotus", "Artifact"⟩
    (by decide) (by decide) (by decide)

theorem strCmp_swap (a b : String) : (strCmp a b).swap = strCmp b a :=
  cmpCharList_swap a.data b.data

theorem then_swap (o₁ o₂ : Ordering) : (o₁.then o₂).swap = o₁.swap.then o₂.swap := by
  cases o₁ <;> rfl

theorem then_eq (o : Ordering) : o.then .eq = o := by
  cases o <;> rfl

/-- Chained string comparison of two equal-length field tuples: the tuple
comparison Python generates for `order=True` dataclasses whose fields are all
strings. -/
def strCmpList : List String → List String → Ordering
  | x :: xs, y :: ys => (strCmp x y).then (strCmpList xs ys)
  | _, _ => .eq

theorem strCmpList_eq_eq : ∀ {xs ys : List String},
    xs.length = ys.length → (strCmpList xs ys = .eq ↔ xs = ys)
  | [], [] => by simp [strCmpList]
  | [], _ :: _ => by intro h; simp at h
  | _ :: _, [] => by intro h; simp at h
  | x :: xs, y :: ys => by
    intro h
    show (strCmp x y).then (strCmpList xs ys) = .eq ↔ _
    rw [Ordering.then_eq_eq, strCmp_eq_eq,
      strCmpList_eq_eq (by simpa using h)]
    simp

theorem strCmpList_swap : ∀ (xs ys : List String),
    (strCmpList xs ys).swap = strCmpList ys xs
  | [], [] => rfl
  | [], _ :: _ => rfl
  | _ :: _, [] => rfl
  | x :: xs, y :: ys => by
    show ((strCmp x y).then (strCmpList xs ys)).swap = (strCmp y x).then (strCmpList ys xs)
    rw [then_swap, strCmp_swap, strCmpList_swap xs ys]

theorem strCmpList_trans_lt : ∀ {xs ys zs : List String},
    xs.length = ys.length → ys.length = zs.length →
    strCmpList xs ys = .lt → strCmpList ys zs = .lt → strCmpList xs zs = .lt
  | [], [], [] => by simp [strCmpList]
  | [], [], _ :: _ => by intro _ h; simp at h
  | [], _ :: _, _ => by intro h; simp at h
  | _ :: _, [], _ => by intro h; simp at h
  | _ :: _, _ :: _, [] => by intro _ h; simp at h
  | x :: xs, y :: ys, z :: zs => by
    intro hl₁ hl₂ h₁ h₂
    replace hl₁ : xs.length = ys.length := by simpa using hl₁
    replace hl₂ : ys.length = zs.length := by simpa using hl₂
    rw [show strCmpList (x :: xs) (y :: ys) = (strCmp x y).then (strCmpList xs ys) from rfl,
      Ordering.then_eq_lt] at h₁
    rw [show strCmpList (y :: ys) (z :: zs) = (strCmp y z).then (strCmpList ys zs) from rfl,
      Ordering.then_eq_lt] at h₂
    show (strCmp x z).then (strCmpList xs zs) = .lt
    rw [Ordering.then_eq_lt]
    rcases h₁ with h₁ | ⟨h₁e, h₁t⟩ <;> rcases h₂ with h₂ | ⟨h₂e, h₂t⟩
    · exact Or.inl (strCmp_trans_lt h₁ h₂)
    · exact Or.inl ((strCmp_eq_eq.mp h₂e) ▸ h₁)
    · exact Or.inl ((strCmp_eq_eq.mp h₁e) ▸ h₂)
    · refine Or.inr ⟨?_, strCmpList_trans_lt hl₁ hl₂ h₁t h₂t⟩
      rw [strCmp_eq_eq.mp h₁e, strCmp_eq_eq.mp h₂e]
      exact strCmp_self z

/-- The field tuple that `order=True` compares on `CubeEntry`, in declaration
order. -/
def entryFields (a : CubeEntry) : List String :=
  [a.name, a.number, a.set_code, a.bucket]

/-- The dataclass comparison of two `CubeEntry` records: plain string
comparison of (name, number, set_code, bucket), lexicographically. -/
def entryCmpPy (a b : CubeEntry) : Ordering :=
  strCmpList (entryFields a) (entryFields b)

theorem entryCmpPy_eq_eq {a b : CubeEntry} : entryCmpPy a b = .eq ↔ a = b := by
  unfold entryCmpPy
  rw [strCmpList_eq_eq (by rfl)]
  unfold entryFields
  cases a
  cases b
  simp [CubeEntry.mk.injEq]

theorem entryCmpPy_swap (a b : CubeEntry) :
    (entryCmpPy a b).swap = entryCmpPy b a :=
  strCmpList_swap _ _

theorem entryCmpPy_trans_lt {a b c : CubeEntry}
    (h₁ : entryCmpPy a b = .lt) (h₂ : entryCmpPy b c = .lt) :
    entryCmpPy a c = .lt := by
  apply strCmpList_trans_lt _ _ h₁ h₂ <;> rfl

/-- The tuple comparison Python applies to the `(CubeEntry, quantity)` pairs
sorted by `_bucketize`: the entry first (dataclass order), then the
quantity. -/
def pairCmp (p q : CubeEntry × Nat) : Ordering :=
  (entryCmpPy p.1 q.1).then (pyCmp p.2 q.2)

theorem pairCmp_eq_eq {p q : CubeEntry × Nat} : pairCmp p q = .eq ↔ p = q := by
  unfold pairCmp
  rw [Ordering.then_eq_eq, entryCmpPy_eq_eq, pyCmp_eq_eq]
  cases p
  cases q
  simp [Prod.ext_iff]

theorem pairCmp_swap (p q : CubeEntry × Nat) :
    (pairCmp p q).swap = pairCmp q p := by
  unfold pairCmp
  rw [then_swap, entryCmpPy_swap, pyCmp_swap]

theorem pairCmp_trans_lt {p q r : CubeEntry × Nat}
    (h₁ : pairCmp p q = .lt) (h₂ : pairCmp q r = .lt) : pairCmp p r = .lt := by
  unfold pairCmp at h₁ h₂ ⊢
  rw [Ordering.then_eq_lt] at h₁ h₂ ⊢
  rcases h₁ with h₁ | ⟨h₁e, h₁t⟩ <;> rcases h₂ with h₂ | ⟨h₂e, h₂t⟩
  · exact Or.inl (entryCmpPy_trans_lt h₁ h₂)
  · exact Or.inl ((entryCmpPy_eq_eq.mp h₂e) ▸ h₁)
  · exact Or.inl ((entryCmpPy_eq_eq.mp h₁e) ▸ h₂)
  · refine Or.inr ⟨?_, pyCmp_trans_lt h₁t h₂t⟩
    rw [entryCmpPy_eq_eq.mp h₁e, entryCmpPy_eq_eq.mp h₂e]
    exact entryCmpPy_eq_eq.mpr rfl

/-- Non-strict pair order used to model Python `list.sort()` on the
`(CubeEntry, quantity)` pairs. -/
def pairLe (p q : CubeEntry × Nat) : Prop :=
  pairCmp p q ≠ .gt

instance pairLe.decidableRel : DecidableRel pairLe :=
  fun p q => inferInstanceAs (Decidable (pairCmp p q ≠ .gt))

instance pairLe.isTotal : IsTotal (CubeEntry × Nat) pairLe := by
  constructor
  intro p q
  by_cases h : pairCmp p q = .gt
  · right
    intro hq
    rw [← pairCmp_swap, h] at hq
    exact Ordering.noConfusion hq
  · exact Or.inl h

instance pairLe.isTrans : IsTrans (CubeEntry × Nat) pairLe := by
  constructor
  intro p q r h₁ h₂
  unfold pairLe at h₁ h₂ ⊢
  rcases hpq : pairCmp p q with _ | _ | _
  · rcases hqr : pairCmp q r with _ | _ | _
    · rw [pairCmp_trans_lt hpq hqr]
      simp
    · rw [pairCmp_eq_eq.mp hqr] at hpq
      rw [hpq]
      simp
    · exact absurd hqr h₂
  · rw [pairCmp_eq_eq.mp hpq]
    exact h₂
  · exact absurd hpq h₁

/-- One step of the `defaultdict(list)` grouping loop in `_bucketize`: append
the pair to its bucket's list, creating the bucket at the end on first
sight. -/
def insertGroup (acc : List (String × List (CubeEntry × Nat)))
    (p : CubeEntry × Nat) : List (String × List (CubeEntry × Nat)) :=
  match acc with
  | [] => [(p.1.bucket, [p])]
  | (k, v) :: rest =>
    if k = p.1.bucket then (k, v ++ [p]) :: rest
    else (k, v) :: insertGroup rest p

/-- The grouping loop of `_bucketize`, fed the counter's items in order. -/
def groupByBucket (l : List (CubeEntry × Nat)) :
    List (String × List (CubeEntry × Nat)) :=
  l.foldl insertGroup []

/-- Lookup of a bucket's accumulated list (a Python dict access). -/
def lookupG (acc : List (String × List (CubeEntry × Nat))) (k : String) :
    Option (List (CubeEntry × Nat)) :=
  (acc.find? (fun kv => kv.1 == k)).map (fun kv => kv.2)


theorem insertGroup_nil (p : CubeEntry × Nat) :
    insertGroup [] p = [(p.1.bucket, [p])] := rfl

theorem insertGroup_cons (k' : String) (v' : List (CubeEntry × Nat))
    (rest : List (String × List (CubeEntry × Nat))) (p : CubeEntry × Nat) :
    insertGroup ((k', v') :: rest) p =
      if k' = p.1.bucket then (k', v' ++ [p]) :: rest
      else (k', v') :: insertGroup rest p := rfl

theorem lookupG_nil (k : String) : lookupG [] k = none := rfl

theorem lookupG_cons (k' : String) (v' : List (CubeEntry × Nat))
    (rest : List (String × List (CubeEntry × Nat))) (k : String) :
    lookupG ((k', v') :: rest) k = if k' = k then some v' else lookupG rest k := by
  by_cases h : k' = k
  · subst h
    rw [if_pos rfl]
    unfold lookupG
    rw [List.find?_cons_of_pos _ (by simp)]
    rfl
  · rw [if_neg h]
    unfold lookupG
    rw [List.find?_cons_of_neg _ (by simpa using h)]

theorem lookupG_insertGroup (acc : List (String × List (CubeEntry × Nat)))
    (p : CubeEntry × Nat) (k : String) :
    lookupG (insertGroup acc p) k =
      if k = p.1.bucket then some ((lookupG acc k).getD [] ++ [p])
      else lookupG acc k := by
  induction acc with
  | nil =>
    rw [insertGroup_nil, lookupG_cons, lookupG_nil]
    by_cases h : k = p.1.bucket
    · rw [if_pos h.symm, if_pos h]
      simp
    · rw [if_neg (fun he => h he.symm), if_neg h]
  | cons hd rest ih =>
    obtain ⟨k', v'⟩ := hd
    rw [insertGroup_cons]
    by_cases hk' : k' = p.1.bucket
    · rw [if_pos hk', lookupG_cons, lookupG_cons]
      by_cases hk : k' = k
      · subst hk
        rw [if_pos rfl, if_pos rfl, if_pos hk']
        simp
      · rw [if_neg hk, if_neg hk, if_neg (fun he => hk (hk'.trans he.symm))]
    · rw [if_neg hk', lookupG_cons, lookupG_cons]
      by_cases hk : k' = k
      · subst hk
        rw [if_pos rfl, if_pos rfl, if_neg hk']
      · rw [if_neg hk, if_neg hk, ih]

theorem keys_insertGroup (acc : List (String × List (CubeEntry × Nat)))
    (p : CubeEntry × Nat) :
    (insertGroup acc p).map Prod.fst =
      if p.1.bucket ∈ acc.map Prod.fst then acc.map Prod.fst
      else acc.map Prod.fst ++ [p.1.bucket] := by
  induction acc with
  | nil => simp [insertGroup_nil]
  | cons hd rest ih =>
    obtain ⟨k', v'⟩ := hd
    rw [insertGroup_cons]
    by_cases hk' : k' = p.1.bucket
    · rw [if_pos hk']
      have : p.1.bucket ∈ ((k', v') :: rest).map Prod.fst := by
        simp [hk'.symm]
      rw [if_pos this]
      simp
    · rw [if_neg hk']
      simp only [List.map_cons, ih]
      by_cases hmem : p.1.bucket ∈ rest.map Prod.fst
      · rw [if_pos hmem, if_pos (by simp [hmem])]
      · rw [if_neg hmem, if_neg ?_, List.cons_append]
        simp only [List.map_cons, List.mem_cons]
        rintro (he | hm)
        · exact hk' he.symm
        · exact hmem hm

theorem lookupG_foldl_some :
    ∀ (l : List (CubeEntry × Nat)) (acc : List (String × List (CubeEntry × Nat)))
      (k : String) (v : List (CubeEntry × Nat)),
      lookupG acc k = some v →
      lookupG (l.foldl insertGroup acc) k =
        some (v ++ l.filter (fun p => p.1.bucket = k))
  | [], acc, k, v => by
    intro h
    simpa using h
  | p :: ps, acc, k, v => by
    intro h
    show lookupG (ps.foldl insertGroup (insertGroup acc p)) k = _
    by_cases hb : p.1.bucket = k
    · have h' : lookupG (insertGroup acc p) k = some (v ++ [p]) := by
        rw [lookupG_insertGroup, if_pos hb.symm, h]
        rfl
      rw [lookupG_foldl_some ps (insertGroup acc p) k (v ++ [p]) h']
      rw [List.filter_cons_of_pos (by simpa using hb)]
      simp
    · have h' : lookupG (insertGroup acc p) k = some v := by
        rw [lookupG_insertGroup, if_neg (fun he => hb he.symm), h]
      rw [lookupG_foldl_some ps (insertGroup acc p) k v h']
      rw [List.filter_cons_of_neg (by simpa using hb)]

theorem lookupG_foldl_none :
    ∀ (l : List (CubeEntry × Nat)) (acc : List (String × List (CubeEntry × Nat)))
      (k : String) (v : List (CubeEntry × Nat)),
      lookupG acc k = none →
      lookupG (l.foldl insertGroup acc) k = some v →
      v = l.filter (fun p => p.1.bucket = k)
  | [], acc, k, v => by
    intro hnone hsome
    rw [show ([] : List (CubeEntry × Nat)).foldl insertGroup acc = acc from rfl,
      hnone] at hsome
    exact Option.noConfusion hsome
  | p :: ps, acc, k, v => by
    intro hnone hsome
    rw [show ((p :: ps).foldl insertGroup acc) = ps.foldl insertGroup (insertGroup acc p)
      from rfl] at hsome
    by_cases hb : p.1.bucket = k
    · have h' : lookupG (insertGroup acc p) k = some [p] := by
        rw [lookupG_insertGroup, if_pos hb.symm, hnone]
        rfl
      rw [lookupG_foldl_some ps (insertGroup acc p) k [p] h'] at hsome
      rw [List.filter_cons_of_pos (by simpa using hb)]
      simpa using (Option.some.inj hsome).symm
    · have h' : lookupG (insertGroup acc p) k = none := by
        rw [lookupG_insertGroup, if_neg (fun he => hb he.symm), hnone]
      rw [List.filter_cons_of_neg (by simpa using hb)]
      exact lookupG_foldl_none ps (insertGroup acc p) k v h' hsome

theorem keys_foldl :
    ∀ (l : List (CubeEntry × Nat)) (acc : List (String × List (CubeEntry × Nat))),
      (l.foldl insertGroup acc).map Prod.fst =
        acc.map Prod.fst ++
          firstDedup ((l.map (fun p => p.1.bucket)).filter
            (fun b => ¬ b ∈ acc.map Prod.fst))
  | [], acc => by simp [firstDedup, firstDedupF]
  | p :: ps, acc => by
    show (ps.foldl insertGroup (insertGroup acc p)).map Prod.fst = _
    rw [keys_foldl ps (insertGroup acc p), keys_insertGroup]
    by_cases hmem : p.1.bucket ∈ acc.map Prod.fst
    · rw [if_pos hmem]
      rw [show (((p :: ps).map (fun p => p.1.bucket)).filter
          (fun b => ¬ b ∈ acc.map Prod.fst)) =
        ((ps.map (fun p => p.1.bucket)).filter (fun b => ¬ b ∈ acc.map Prod.fst)) from by
          rw [List.map_cons, List.filter_cons_of_neg (by simpa using hmem)]]
    · rw [if_neg hmem]
      rw [List.map_cons, List.filter_cons_of_pos (by simpa using hmem), firstDedup_cons]
      rw [List.append_assoc, List.singleton_append]
      congr 2
      rw [List.filter_filter]
      apply congrArg
      apply List.filter_congr
      intro b _
      by_cases h₁ : b ∈ acc.map Prod.fst <;> by_cases h₂ : b = p.1.bucket <;>
        simp [h₁, h₂]

theorem lookupG_of_mem :
    ∀ (acc : List (String × List (CubeEntry × Nat))) (kv : String × List (CubeEntry × Nat)),
      kv ∈ acc → (acc.map Prod.fst).Nodup → lookupG acc kv.1 = some kv.2
  | [], kv => by
    intro h _
    exact absurd h (List.not_mem_nil kv)
  | (k', v') :: rest, kv => by
    intro hmem hnodup
    rcases List.mem_cons.mp hmem with rfl | hmem
    · rw [lookupG_cons, if_pos rfl]
    · have hk : k' ≠ kv.1 := by
        intro he
        have : k' ∈ rest.map Prod.fst := he ▸ List.mem_map_of_mem Prod.fst hmem
        exact (List.nodup_cons.mp (by simpa using hnodup)).1 this
      rw [lookupG_cons, if_neg hk]
      exact lookupG_of_mem rest kv hmem (List.nodup_cons.mp (by simpa using hnodup)).2

theorem keys_groupByBucket (l : List (CubeEntry × Nat)) :
    (groupByBucket l).map Prod.fst = firstDedup (l.map (fun p => p.1.bucket)) := by
  unfold groupByBucket
  rw [keys_foldl]
  simp

theorem mem_groupByBucket {l : List (CubeEntry × Nat)} {k : String}
    {v : List (CubeEntry × Nat)} (h : (k, v) ∈ groupByBucket l) :
    v = l.filter (fun p => p.1.bucket = k) := by
  have hnodup : ((groupByBucket l).map Prod.fst).Nodup := by
    rw [keys_groupByBucket]
    exact nodup_firstDedup _
  have hlook := lookupG_of_mem (groupByBucket l) (k, v) h hnodup
  exact lookupG_foldl_none l [] k v (lookupG_nil k) hlook

/-- `XMageExporter._bucketize`: group the cube counter's `(card, quantity)`
pairs by bucket with a `defaultdict` (bucket keys in first-appearance order),
then sort each bucket in place.  Python sorts the `(CubeEntry, quantity)`
tuples by `__lt__`, i.e. by the dataclass field tuple compared as plain
strings; the in-place stable sort is modelled by `insertionSort` under
`pairLe`. -/
def bucketize (cube : Cube) : List (String × List (CubeEntry × Nat)) :=
  (groupByBucket cube.entries).map
    (fun kv => (kv.1, List.insertionSort pairLe kv.2))

theorem counterList_count {α : Type} [DecidableEq α] {l : List α} {p : α × Nat}
    (h : p ∈ counterList l) : p.2 = l.count p.1 := by
  unfold counterList at h
  obtain ⟨x, hx, rfl⟩ := List.mem_map.mp h
  rfl

/-- The within-bucket ordering claimed by the spec for C1: name first, then
the *chunked alphanumeric* comparison of collector numbers, then set code,
then bucket (`none` when the chunk comparison raises).  This definition
follows the spec's words and exists to be compared against the behaviour of
`bucketize`. -/
def specEntryCmp (a b : CubeEntry) : Option Ordering :=
  match strCmp a.name b.name with
  | .eq =>
    match cmpChunks (chunkify a.number) (chunkify b.number) with
    | some .eq => some ((strCmp a.set_code b.set_code).then (strCmp a.bucket b.bucket))
    | r => r
  | o => some o

/-- Adjacent pairs of a bucket list are non-descending under the claimed
order. -/
def claimSorted : List (CubeEntry × Nat) → Bool
  | p :: q :: rest =>
    decide (specEntryCmp p.1 q.1 ≠ some .gt) && claimSorted (q :: rest)
  | _ => true

def e9c : CubeEntry := ⟨"Squire", "9", "S", "B"⟩

def e10c : CubeEntry := ⟨"Squire", "10", "S", "B"⟩

def cubeC1 : Cube := ⟨"Cube", "2020-12-07", "W", counterList [e9c, e10c]⟩

/-- Claim C1 counterexample: a bucket holding two records that differ only in
collector number (`"9"` and `"10"`) is emitted with `"10"` first — the
dataclass order compares the numbers as plain strings — whereas the claimed
chunked-alphanumeric order puts `"9"` first; the emitted bucket violates the
claimed sort order. -/
theorem aggregation_cex :
    bucketize cubeC1 = [("B", [(e10c, 1), (e9c, 1)])] ∧
    claimSorted [(e10c, 1), (e9c, 1)] = false ∧
    cmpChunks (chunkify e9c.number) (chunkify e10c.number) = some .lt := by
  refine ⟨by decide, by decide, by decide⟩

/-- Claim C1 (amended): `bucketize` groups the resolved `(record, count)`
pairs by bucket, the bucket keys appearing in first-occurrence order; each
emitted bucket is a permutation of that bucket's pairs, sorted by the plain
string tuple order over (name, collector number, set code, bucket) — not by
the chunked alphanumeric comparison of collector numbers; and, fed a counter
built over resolved cards, every emitted pair carries the multiplicity of its
record among the cards. -/
theorem aggregation_spec :
    (∀ cube : Cube,
      (bucketize cube).map Prod.fst =
        firstDedup (cube.entries.map (fun p => p.1.bucket)) ∧
      ∀ k v, (k, v) ∈ bucketize cube →
        v.Perm (cube.entries.filter (fun p => p.1.bucket = k)) ∧
        List.Sorted pairLe v) ∧
    (∀ (n d a : String) (cards : List CubeEntry) (k : String)
      (v : List (CubeEntry × Nat)),
      (k, v) ∈ bucketize ⟨n, d, a, counterList cards⟩ →
      ∀ p ∈ v, p.2 = cards.count p.1) := by
  have hmain : ∀ cube : Cube, ∀ k v, (k, v) ∈ bucketize cube →
      v = List.insertionSort pairLe
        (cube.entries.filter (fun p => p.1.bucket = k)) := by
    intro cube k v hmem
    unfold bucketize at hmem
    obtain ⟨kv, hkv, heq⟩ := List.mem_map.mp hmem
    obtain ⟨k₀, v₀⟩ := kv
    injection heq with h₁ h₂
    subst h₁
    subst h₂
    rw [mem_groupByBucket hkv]
  constructor
  · intro cube
    constructor
    · unfold bucketize
      rw [List.map_map]
      exact keys_groupByBucket _
    · intro k v hmem
      rw [hmain cube k v hmem]
      exact ⟨List.perm_insertionSort pairLe _, List.sorted_insertionSort pairLe _⟩
  · intro n d a cards k v hmem p hp
    have hv := hmain _ k v hmem
    rw [hv] at hp
    have hp' : p ∈ counterList cards := by
      have := (List.perm_insertionSort pairLe _).mem_iff.mp hp
      exact List.mem_of_mem_filter this
    exact counterList_count hp'

/-- Witness for the amended C1 theorem at the counterexample cube: the
emitted bucket `"B"` is a sorted permutation of its pairs and carries the
right multiplicities. -/
theorem aggregation_spec_witness :
    ([(e10c, 1), (e9c, 1)] : List (CubeEntry × Nat)).Perm
      (cubeC1.entries.filter (fun p => p.1.bucket = "B")) ∧
    List.Sorted pairLe [(e10c, 1), (e9c, 1)] ∧
    ∀ p ∈ ([(e10c, 1), (e9c, 1)] : List (CubeEntry × Nat)),
      p.2 = ([e9c, e10c] : List CubeEntry).count p.1 := by
  obtain ⟨h₁, h₂⟩ := aggregation_spec
  have hb : ("B", [(e10c, 1), (e9c, 1)]) ∈ bucketize cubeC1 := by decide
  obtain ⟨hp, hs⟩ := (h₁ cubeC1).2 "B" [(e10c, 1), (e9c, 1)] hb
  exact ⟨hp, hs, h₂ "Cube" "2020-12-07" "W" [e9c, e10c] "B" _ hb⟩

/-- `pathlib.PurePath.name`: the final path component (trailing slashes are
normalized away; the root has an empty name). -/
def pathName (p : String) : String :=
  String.mk
    (((p.data.reverse.dropWhile (fun c => c == '/')).takeWhile
      (fun c => !(c == '/'))).reverse)

/-- Index of the last `'.'` in a character list (Python `str.rfind`), `none`
when absent. -/
def lastDotIdx : List Char → Option Nat
  | [] => none
  | c :: cs =>
    match lastDotIdx cs with
    | some i => some (i + 1)
    | none => if c = '.' then some 0 else none

/-- `pathlib.PurePath.suffix`: the extension of the final component — the
part from the last dot on, unless that dot is leading (hidden files) or
trailing. -/
def pySuffix (p : String) : String :=
  match lastDotIdx (pathName p).data with
  | some i =>
    if 0 < i ∧ i + 1 < (pathName p).data.length
    then String.mk ((pathName p).data.drop i)
    else ""
  | none => ""

/-- `pathlib.PurePath.stem`: the final component without its suffix. -/
def pyStem (p : String) : String :=
  String.mk
    ((pathName p).data.take ((pathName p).data.length - (pySuffix p).data.length))

/-- The exceptions a `minimize` run can raise: the explicit `ValueError` of
`XMageDeckFile.__init__`, or an `OSError` from opening a missing input. -/
inductive PyErr : Type where
  | valueError : PyErr
  | osError : PyErr
deriving DecidableEq

/-- A file system: paths mapped to file contents (lists of lines). -/
structure FS : Type where
  files : List (String × List String)
deriving DecidableEq

def fsRead (fs : FS) (path : String) : Option (List String) :=
  (fs.files.find? (fun f => f.1 == path)).map (fun f => f.2)

def fsWrite (fs : FS) (path : String) (content : List String) : FS :=
  ⟨(fs.files.filter (fun f => ¬ f.1 = path)) ++ [(path, content)]⟩

/-- `_is_empty`: `not line.strip()`. -/
def is_empty (line : String) : Bool := line.trim == ""

/-- `_is_comment`: `line.startswith("#")`. -/
def is_comment (line : String) : Bool := line.startsWith "#"

/-- `_is_xmage_ignored`. -/
def is_xmage_ignored (line : String) : Bool := is_empty line || is_comment line

/-- `XMageDeckFile._is_valid_xmage_file`: `path.suffix == ".dck"`. -/
def is_valid_xmage_file (path : String) : Bool := pySuffix path == ".dck"

/-- `XMageDeckFile._minimized_name`: `stem + ".min" + suffix`. -/
def minimized_name (path : String) : String :=
  pyStem path ++ ".min" ++ pySuffix path

/-- `minimize`: `XMageDeckFile.__init__` validates the extension before any
file is touched; only then is the input opened (a missing input raises
`OSError`) and the filtered lines written to the target. -/
def minimizeRun (file : String) (target : Option String) (fs : FS) :
    Option PyErr × FS :=
  if ¬ is_valid_xmage_file file then (some .valueError, fs)
  else
    match fsRead fs file with
    | none => (some .osError, fs)
    | some lines =>
      (none, fsWrite fs (target.getD (minimized_name file))
        (lines.filter (fun l => !(is_xmage_ignored l))))

/-- Claim C10: `minimize` raises `ValueError` exactly when the path's
extension (in the `pathlib` sense of `suffix`) is not `".dck"`; the check
precedes every file operation, so in that case the file system is left
untouched — no output file is created or modified. -/
theorem minimize_valueerror_iff (file : String) (target : Option String) (fs : FS) :
    ((minimizeRun file target fs).1 = some .valueError ↔ pySuffix file ≠ ".dck") ∧
    (pySuffix file ≠ ".dck" → (minimizeRun file target fs).2 = fs) := by
  unfold minimizeRun is_valid_xmage_file
  by_cases h : pySuffix file = ".dck"
  · rw [if_neg (by simp [h])]
    refine ⟨⟨fun hv => ?_, fun hne => absurd h hne⟩, fun hne => absurd h hne⟩
    rcases hr : fsRead fs file with _ | lines <;> rw [hr] at hv <;> simp at hv
  · rw [if_pos (by simp [h])]
    exact ⟨⟨fun _ => h, fun _ => rfl⟩, fun _ => rfl⟩

/-- Witness for C10: a `.txt` path is rejected with `ValueError` and the file
system is unchanged. -/
theorem minimize_valueerror_iff_witness :
    (minimizeRun "deck.txt" none ⟨[]⟩).1 = some .valueError ∧
    (minimizeRun "deck.txt" none ⟨[]⟩).2 = (⟨[]⟩ : FS) :=
  ⟨(minimize_valueerror_iff "deck.txt" none ⟨[]⟩).1.mpr (by decide),
   (minimize_valueerror_iff "deck.txt" none ⟨[]⟩).2 (by decide)⟩
